import Mathlib

/-!
Verification of the `emstr` encoding core against its specification.

The development shallowly embeds the `EncodeStr` implementations of the
repository: buffers are lists of bytes (`Nat`), the fallible `write`
operations return a result type with an explicit constructor for a Rust
panic (an out-of-bounds index), and machine integers are modelled as
`Nat` / `Int` (the claims under consideration exclude the signed-minimum
gap, and the algorithms are width-generic).  Rust's truncating division
and remainder on signed integers are `Int.tdiv` / `Int.tmod`.
-/

/-- Byte buffer: `&mut [u8]` contents as a list of byte values. -/
abbrev Buff := List Nat

/-- Error type from src/error.rs: `BufferLength` and `InvalidUtf8`. -/
inductive Error where
  | BufferLength
  | InvalidUtf8
deriving DecidableEq, Repr

/-- Result of a `write` call.  `ok buff n` is `Ok(n)` together with the
buffer contents after the call; `error e buff` is `Err(e)` together with
the buffer contents (Rust mutates the caller's buffer in place); `crash`
models a Rust panic from an out-of-bounds index or slice. -/
inductive WRes where
  | ok (buff : Buff) (n : Nat)
  | error (e : Error) (buff : Buff)
  | crash
deriving DecidableEq, Repr

/-- The Rust assignment `buff[i] = x`: succeeds in bounds, panics (`none`)
out of bounds. -/
def setP (l : Buff) (i : Nat) (x : Nat) : Option Buff :=
  if i < l.length then some (l.set i x) else none

/-- The Rust slice `&mut buff[n..]`: succeeds when `n <= buff.len()`,
panics (`none`) otherwise. -/
def sliceFrom (l : Buff) (n : Nat) : Option Buff :=
  if n ≤ l.length then some (l.drop n) else none

/-- Overwrite the bytes of `l` at positions `[i, i + s.length)` with `s`.
Specification artifact used to state what the writers produce. -/
def writeAt (l : Buff) (i : Nat) (s : List Nat) : Buff :=
  l.take i ++ s ++ l.drop (i + s.length)

/-- `CHAR_MAP` from src/types/int.rs: character map for integer encoding. -/
def CHAR_MAP : List Char := ['0', '1', '2', '3', '4', '5', '6', '7', '8', '9']

/-- Reading `CHAR_MAP[r] as u8` (the loop only ever uses `r = v % 10 < 10`,
which is in bounds). -/
def charMap (r : Nat) : Nat := (CHAR_MAP.getD r '0').toNat

/-- The digit-count loop `while v > 0 { v /= 10; n += 1 }` of
src/types/int.rs, with structural fuel (the loop runs at most `v` times,
and the caller passes `fuel = v`). -/
def countDigitsGo : Nat → Nat → Nat
  | _, 0 => 0
  | 0, _ + 1 => 0
  | fuel + 1, v + 1 => countDigitsGo fuel ((v + 1) / 10) + 1

/-- Number of executed iterations of the digit-count loop started at `v`. -/
def countDigits (v : Nat) : Nat := countDigitsGo v v

/-- `len` of `impl_uint_encode` in src/types/int.rs: 1 for zero, otherwise
the number of divide-by-ten iterations. -/
def uintLen (v : Nat) : Nat := if v = 0 then 1 else countDigits v

/-- The digit-writing loop of `impl_uint_encode::write`:
`for i in 0..c { r = v % 10; v /= 10; buff[n - i - 1] = CHAR_MAP[r] }`,
structurally recursive on the remaining iteration count `c`. -/
def writeLoop : Nat → Nat → Nat → Nat → Buff → Option Buff
  | 0, _, _, _, buff => some buff
  | c + 1, i, n, v, buff =>
    match setP buff (n - i - 1) (charMap (v % 10)) with
    | none => none
    | some b => writeLoop c (i + 1) n (v / 10) b

/-- `write` of `impl_uint_encode` in src/types/int.rs. -/
def uintWrite (v : Nat) (buff : Buff) : WRes :=
  if buff.length < uintLen v then .error .BufferLength buff
  else
    match writeLoop (uintLen v) 0 (uintLen v) v buff with
    | none => .crash
    | some b => .ok b (uintLen v)

/-- `len` of `impl_sint_encode` in src/types/int.rs: 1 for zero; for
negative values one for the sign plus the digit count of `-v` (after the
negation the loop runs on a non-negative value, so it is the `Nat` loop
on `v.natAbs`). -/
def sintLen (v : Int) : Nat :=
  if v = 0 then 1
  else (if v < 0 then 1 else 0) + countDigits v.natAbs

/-- `write` of `impl_sint_encode` in src/types/int.rs: for negative values
`buff[0] = '-'` first and the digit loop runs `n - 1` times on `-v`. -/
def sintWrite (v : Int) (buff : Buff) : WRes :=
  if buff.length < sintLen v then .error .BufferLength buff
  else
    if v < 0 then
      match setP buff 0 45 with
      | none => .crash
      | some b =>
        match writeLoop (sintLen v - 1) 0 (sintLen v) v.natAbs b with
        | none => .crash
        | some b2 => .ok b2 (sintLen v)
    else
      match writeLoop (sintLen v) 0 (sintLen v) v.natAbs buff with
      | none => .crash
      | some b => .ok b (sintLen v)

/-- The digit-count loop of `impl_uint_encode::len` instantiated at the
signed type `isize` (src/types/int.rs line `impl_uint_encode!(isize)`):
`while v > 0` on a signed value, with truncating division.  For `v < 0`
the loop never runs. -/
def intCountDigitsGo : Nat → Int → Nat
  | 0, _ => 0
  | fuel + 1, v => if 0 < v then intCountDigitsGo fuel (v.tdiv 10) + 1 else 0

/-- `len` of `impl_uint_encode!(isize)`: zero yields 1; otherwise the loop
count (which is 0 for negative values, since `while v > 0` fails
immediately). -/
def isizeLen (v : Int) : Nat :=
  if v = 0 then 1 else intCountDigitsGo v.toNat v

/-- The digit-writing loop of `impl_uint_encode!(isize)::write`, over the
signed type: `r = (v % 10) as usize; v /= 10` with truncating `%` / `/`
(the loop count is 0 whenever `v` is negative, so the cast only ever sees
non-negative remainders, modelled by `Int.toNat`). -/
def intWriteLoop : Nat → Nat → Nat → Int → Buff → Option Buff
  | 0, _, _, _, buff => some buff
  | c + 1, i, n, v, buff =>
    match setP buff (n - i - 1) (charMap (v.tmod 10).toNat) with
    | none => none
    | some b => intWriteLoop c (i + 1) n (v.tdiv 10) b

/-- `write` of `impl_uint_encode!(isize)` in src/types/int.rs. -/
def isizeWrite (v : Int) (buff : Buff) : WRes :=
  if buff.length < isizeLen v then .error .BufferLength buff
  else
    match intWriteLoop (isizeLen v) 0 (isizeLen v) v buff with
    | none => .crash
    | some b => .ok b (isizeLen v)

/-- `write` of `impl EncodeStr for &str` in src/types/mod.rs: length check
then `buff[..n].copy_from_slice(self.as_bytes())`. -/
def strWrite (s : List Nat) (buff : Buff) : WRes :=
  if s.length > buff.length then .error .BufferLength buff
  else .ok (s ++ buff.drop s.length) s.length

/-- `write` of `impl EncodeStr for char` in src/types/mod.rs:
`buff[0] = *self as u8`, the `as u8` cast truncating the code point to its
low 8 bits. -/
def charWrite (c : Char) (buff : Buff) : WRes :=
  if 1 > buff.length then .error .BufferLength buff
  else
    match setP buff 0 (c.toNat % 256) with
    | none => .crash
    | some b => .ok b 1

/-- `HEX_MAP` from src/helpers/hex.rs. -/
def HEX_MAP : List Char :=
  ['0', '1', '2', '3', '4', '5', '6', '7'] ++
    ['8', '9', 'a', 'b', 'c', 'd', 'e', 'f']

/-- Reading `HEX_MAP[r] as u8` (callers index with values `< 16`). -/
def hexByte (r : Nat) : Nat := (HEX_MAP.getD r '0').toNat

/-- The loop of `Hex::write` in src/helpers/hex.rs:
`buff[i*2] = HEX_MAP[(v >> 4) & 0x0F]; buff[i*2+1] = HEX_MAP[v & 0x0F]`
(`(v >> 4) & 0x0F` is `v / 16 % 16` and `v & 0x0F` is `v % 16`). -/
def hexLoop : List Nat → Nat → Buff → Option Buff
  | [], _, buff => some buff
  | v :: rest, i, buff =>
    match setP buff (i * 2) (hexByte (v / 16 % 16)) with
    | none => none
    | some b1 =>
      match setP b1 (i * 2 + 1) (hexByte (v % 16)) with
      | none => none
      | some b2 => hexLoop rest (i + 1) b2

/-- `write` of `impl EncodeStr for Hex` in src/helpers/hex.rs. -/
def hexWrite (b : List Nat) (buff : Buff) : WRes :=
  if buff.length < b.length * 2 then .error .BufferLength buff
  else
    match hexLoop b 0 buff with
    | none => .crash
    | some b2 => .ok b2 (b.length * 2)

/-- A fill loop `for j in 0..cnt { buff[i + j] = x }`, used by the zero
padding of `Fractional::write` and the fill loops of `Pad::write`. -/
def fillRange : Nat → Nat → Nat → Buff → Option Buff
  | _, 0, _, buff => some buff
  | i, cnt + 1, x, buff =>
    match setP buff i x with
    | none => none
    | some b => fillRange (i + 1) cnt x b

/-- `int_part` of src/helpers/fractional.rs: `value / divisor` with Rust's
truncating signed division. -/
def intPart (v d : Int) : Int := v.tdiv d

/-- `dec_part` of src/helpers/fractional.rs:
`(value % divisor).abs()`, with Rust's truncating `%`. -/
def decPart (v d : Int) : Int := ((v.tmod d).natAbs : Int)

/-- `len` of `impl EncodeStr for Fractional` in src/helpers/fractional.rs. -/
def fracLen (v d : Int) : Nat :=
  if decPart v d = 0 then sintLen (intPart v d)
  else
    (if intPart v d = 0 ∧ v < 0 then sintLen (intPart v d) + 1
     else sintLen (intPart v d)) + sintLen d

/-- The zero-padding width of `Fractional::write`:
`if divisor.len() > dec_part.len() { divisor.len() - dec_part.len() - 1 }`. -/
def fracPadding (v d : Int) : Nat :=
  if sintLen d > sintLen (decPart v d) then sintLen d - sintLen (decPart v d) - 1
  else 0

/-- The sign step of `Fractional::write`: for a zero integer part of a
negative value, `buff[n] = '-' as u8; n += 1` (a direct index that panics
on an empty buffer). -/
def fracSignStep (v d : Int) (buff : Buff) : Option (Buff × Nat) :=
  if intPart v d = 0 ∧ v < 0 then
    match setP buff 0 45 with
    | none => none
    | some b => some (b, 1)
  else some (buff, 0)

/-- The decimal tail of `Fractional::write` (entered when `dec_part` is
non-zero): `'.'` via the char encoder, the zero-padding loop with direct
indexing, then the decimal digits via the integer encoder. -/
def fracDecStep (v d : Int) (b2 : Buff) (n2 : Nat) : WRes :=
  match sliceFrom b2 n2 with
  | none => .crash
  | some sub2 =>
    match charWrite '.' sub2 with
    | .error e sb => .error e (b2.take n2 ++ sb)
    | .crash => .crash
    | .ok sb m2 =>
      match fillRange (n2 + m2) (fracPadding v d) 48 (b2.take n2 ++ sb) with
      | none => .crash
      | some b4 =>
        match sliceFrom b4 (n2 + m2 + fracPadding v d) with
        | none => .crash
        | some sub3 =>
          match sintWrite (decPart v d) sub3 with
          | .error e sb3 => .error e (b4.take (n2 + m2 + fracPadding v d) ++ sb3)
          | .crash => .crash
          | .ok sb3 m3 => .ok (b4.take (n2 + m2 + fracPadding v d) ++ sb3) (n2 + m2 + fracPadding v d + m3)

/-- `write` of `impl EncodeStr for Fractional` in src/helpers/fractional.rs:
sign step, integer part via the integer encoder on `&mut buff[n..]`,
whole-number shortcut when `dec_part` is zero, otherwise the decimal tail. -/
def fracWrite (v d : Int) (buff : Buff) : WRes :=
  match fracSignStep v d buff with
  | none => .crash
  | some (b1, n1) =>
    match sliceFrom b1 n1 with
    | none => .crash
    | some sub1 =>
      match sintWrite (intPart v d) sub1 with
      | .error e sb => .error e (b1.take n1 ++ sb)
      | .crash => .crash
      | .ok sb m =>
        if decPart v d = 0 then .ok (b1.take n1 ++ sb) (n1 + m)
        else fracDecStep v d (b1.take n1 ++ sb) (n1 + m)

/-- The encodable values of the library: the `EncodeStr` implementations
of src/types and src/helpers.  `uint` covers u8/u16/u32/u64/usize, `sint`
covers i8/i16/i32/i64 (widths differ only in range, which the claims carry
as hypotheses), `isize` is the `impl_uint_encode!(isize)` instantiation,
and `padl`/`padr` are `Pad<E, Left>` / `Pad<E, Right>`. -/
inductive Value where
  | uint (v : Nat)
  | sint (v : Int)
  | isize (v : Int)
  | str (s : List Nat)
  | chr (c : Char)
  | hex (b : List Nat)
  | frac (v d : Int)
  | padl (inner : Value) (width : Nat) (pad : Char)
  | padr (inner : Value) (width : Nat) (pad : Char)
deriving DecidableEq

/-- `len` of each encoder (`Pad::len` is `self.width.max(self.inner.len())`
for both directions, src/helpers/pad.rs). -/
def encLen : Value → Nat
  | .uint v => uintLen v
  | .sint v => sintLen v
  | .isize v => isizeLen v
  | .str s => s.length
  | .chr _ => 1
  | .hex b => b.length * 2
  | .frac v d => fracLen v d
  | .padl e w _ => max w (encLen e)
  | .padr e w _ => max w (encLen e)

/-- `write` of each encoder.  The two pad cases are `PadLeft::write` and
`PadRight::write` of src/helpers/pad.rs: `PadRight` writes the inner value
at offset 0 and then fills `n..m` by direct indexing; `PadLeft` fills
`0..p` by direct indexing and then writes the inner value into
`&mut buff[p..]`, returning `Ok(n + p)`. -/
def encWrite : Value → Buff → WRes
  | .uint v, buff => uintWrite v buff
  | .sint v, buff => sintWrite v buff
  | .isize v, buff => isizeWrite v buff
  | .str s, buff => strWrite s buff
  | .chr c, buff => charWrite c buff
  | .hex b, buff => hexWrite b buff
  | .frac v d, buff => fracWrite v d buff
  | .padl e w c, buff =>
    match fillRange 0 (max w (encLen e) - encLen e) (c.toNat % 256) buff with
    | none => .crash
    | some b =>
      match sliceFrom b (max w (encLen e) - encLen e) with
      | none => .crash
      | some sub =>
        match encWrite e sub with
        | .error er sb => .error er (b.take (max w (encLen e) - encLen e) ++ sb)
        | .crash => .crash
        | .ok sb _ =>
          .ok (b.take (max w (encLen e) - encLen e) ++ sb)
            (encLen e + (max w (encLen e) - encLen e))
  | .padr e w c, buff =>
    match encWrite e buff with
    | .error er b => .error er b
    | .crash => .crash
    | .ok b _ =>
      match fillRange (encLen e) (max w (encLen e) - encLen e) (c.toNat % 256) b with
      | none => .crash
      | some b2 => .ok b2 (max w (encLen e))

/-- Well-formedness side conditions carried by the claims: `Fractional`
divisors are positive powers of ten (the spec's "positive power-of-ten
divisor"; other divisors are declared out of contract), recursively
through the pad wrappers. -/
def WF : Value → Prop
  | .frac _ d => ∃ k : Nat, d = (10 : Int) ^ k
  | .padl e _ _ => WF e
  | .padr e _ _ => WF e
  | _ => True

/-- Big-endian digit bytes written by `c` iterations of the digit loop
started at `v`: position `p` from the right holds `CHAR_MAP[v / 10^p % 10]`. -/
def digitsBytes : Nat → Nat → List Nat
  | 0, _ => []
  | c + 1, v => digitsBytes c (v / 10) ++ [charMap (v % 10)]

/-- Bytes produced by the unsigned integer encoder. -/
def natOut (v : Nat) : List Nat := digitsBytes (uintLen v) v

/-- Bytes produced by the signed integer encoder. -/
def sintOut (v : Int) : List Nat :=
  if v < 0 then 45 :: natOut v.natAbs else natOut v.natAbs

/-- Bytes produced by `impl_uint_encode!(isize)`: empty for negative
values (the digit loop never runs). -/
def isizeOut (v : Int) : List Nat :=
  if v < 0 then [] else natOut v.toNat

/-- Bytes produced by the hex encoder: two lowercase hex characters per
input byte, in order. -/
def hexOut : List Nat → List Nat
  | [] => []
  | v :: rest => hexByte (v / 16 % 16) :: hexByte (v % 16) :: hexOut rest

/-- Bytes produced by the `Fractional` encoder. -/
def fracOut (v d : Int) : List Nat :=
  (if intPart v d = 0 ∧ v < 0 then [45] else []) ++ sintOut (intPart v d) ++
    (if decPart v d = 0 then []
     else 46 :: (List.replicate (fracPadding v d) 48 ++ sintOut (decPart v d)))

/-- Bytes produced by each encoder (specification artifact; the main
theorem `enc_spec` proves `encWrite` realises exactly these bytes). -/
def encOut : Value → List Nat
  | .uint v => natOut v
  | .sint v => sintOut v
  | .isize v => isizeOut v
  | .str s => s
  | .chr c => [c.toNat % 256]
  | .hex b => hexOut b
  | .frac v d => fracOut v d
  | .padl e w c => List.replicate (max w (encLen e) - encLen e) (c.toNat % 256) ++ encOut e
  | .padr e w c => encOut e ++ List.replicate (max w (encLen e) - encLen e) (c.toNat % 256)

/-- The sequential write loop of the `write!` macro in src/lib.rs:
`n += EncodeStr::write(&t, &mut buff[n..])?` over the listed values. -/
def writeSeq : List Value → Buff → Nat → WRes
  | [], buff, n => .ok buff n
  | v :: rest, buff, n =>
    match sliceFrom buff n with
    | none => .crash
    | some sub =>
      match encWrite v sub with
      | .error e sb => .error e (buff.take n ++ sb)
      | .crash => .crash
      | .ok sb m => writeSeq rest (buff.take n ++ sb) (n + m)

/-- `emstr::write!(buff, t1, t2, ...)`: the sequential write starting at
offset 0. -/
def writeAll (es : List Value) (buff : Buff) : WRes := writeSeq es buff 0

/-- Leaf encoders (integers, `&str`, `char`, `Hex`): the ones whose `write`
checks the buffer length up front and therefore reports `BufferLength`
rather than panicking. -/
def isLeafKind : Value → Bool
  | .uint _ | .sint _ | .isize _ | .str _ | .chr _ | .hex _ => true
  | _ => false

/-! ## Basic toolkit lemmas -/

theorem setP_some {l : Buff} {i : Nat} (x : Nat) (h : i < l.length) :
    setP l i x = some (l.set i x) := by
  simp [setP, h]

theorem setP_none {l : Buff} {i : Nat} (x : Nat) (h : l.length ≤ i) :
    setP l i x = none := by
  simp [setP]; omega

theorem setP_some_inv {l b : Buff} {i x : Nat} (h : setP l i x = some b) :
    i < l.length ∧ b = l.set i x := by
  by_cases hi : i < l.length
  · simp [setP, hi] at h; exact ⟨hi, h.symm⟩
  · simp [setP, hi] at h

theorem sliceFrom_some {l : Buff} {n : Nat} (h : n ≤ l.length) :
    sliceFrom l n = some (l.drop n) := by
  simp [sliceFrom, h]

theorem sliceFrom_some_inv {l b : Buff} {n : Nat} (h : sliceFrom l n = some b) :
    n ≤ l.length ∧ b = l.drop n := by
  by_cases hn : n ≤ l.length
  · simp [sliceFrom, hn] at h; exact ⟨hn, h.symm⟩
  · simp [sliceFrom, hn] at h

theorem set_eq_writeAt {l : Buff} {i : Nat} (x : Nat) (h : i < l.length) :
    l.set i x = writeAt l i [x] := by
  rw [List.set_eq_take_cons_drop x h, writeAt]
  simp

theorem writeAt_nil (l : Buff) (i : Nat) : writeAt l i [] = l := by
  simp [writeAt]

theorem writeAt_length {l : Buff} {i : Nat} {s : List Nat}
    (h : i + s.length ≤ l.length) : (writeAt l i s).length = l.length := by
  simp [writeAt]
  omega

theorem writeAt_take {l : Buff} {i : Nat} {s : List Nat} (h : i ≤ l.length) :
    (writeAt l i s).take i = l.take i := by
  rw [writeAt, List.take_append_of_le_length]
  · simp [h]
  · simp; omega

theorem writeAt_drop {l : Buff} {i : Nat} {s : List Nat} (h : i ≤ l.length) :
    (writeAt l i s).drop i = s ++ l.drop (i + s.length) := by
  rw [writeAt, List.drop_append_of_le_length]
  · simp [Nat.min_eq_left h]
  · simp; omega

theorem writeAt_zero (l : Buff) (s : List Nat) :
    writeAt l 0 s = s ++ l.drop s.length := by
  simp [writeAt]

theorem writeAt_append {l : Buff} {i : Nat} {s t : List Nat}
    (h : i + s.length + t.length ≤ l.length) :
    writeAt (writeAt l i s) (i + s.length) t = writeAt l i (s ++ t) := by
  have h1 : (writeAt l i s).take (i + s.length) = l.take i ++ s := by
    rw [writeAt]
    exact List.take_left' (by simp; omega)
  have h2 : (writeAt l i s).drop (i + s.length) = l.drop (i + s.length) := by
    rw [writeAt]
    exact List.drop_left' (by simp; omega)
  show (writeAt l i s).take (i + s.length) ++ t ++
      (writeAt l i s).drop (i + s.length + t.length) = _
  rw [h1, ← List.drop_drop, h2, List.drop_drop, writeAt]
  simp [List.append_assoc, Nat.add_assoc]

theorem writeAt_prepend {l : Buff} {i : Nat} {s t : List Nat}
    (h : i + s.length + t.length ≤ l.length) :
    writeAt (writeAt l (i + s.length) t) i s = writeAt l i (s ++ t) := by
  have h1 : (writeAt l (i + s.length) t).take i = l.take i := by
    rw [writeAt, List.append_assoc]
    rw [List.take_append_of_le_length (by simp; omega), List.take_take,
      Nat.min_eq_left (by omega)]
  have h2 : (writeAt l (i + s.length) t).drop (i + s.length) =
      t ++ l.drop (i + s.length + t.length) := by
    rw [writeAt]
    have hassoc : (l.take (i + s.length) ++ t ++ l.drop (i + s.length + t.length)) =
        l.take (i + s.length) ++ (t ++ l.drop (i + s.length + t.length)) := by
      simp [List.append_assoc]
    rw [hassoc]
    exact List.drop_left' (by simp; omega)
  show (writeAt l (i + s.length) t).take i ++ s ++
      (writeAt l (i + s.length) t).drop (i + s.length) = _
  rw [h1, h2, writeAt]
  simp [List.append_assoc, Nat.add_assoc]

theorem writeAt_reassemble (l : Buff) (p : Nat) (s : List Nat) :
    l.take p ++ writeAt (l.drop p) 0 s = writeAt l p s := by
  rw [writeAt_zero, writeAt, List.drop_drop]
  simp [List.append_assoc]

/-! ## Digit-count loop lemmas -/

theorem countDigitsGo_zero (f : Nat) : countDigitsGo f 0 = 0 := by
  cases f <;> rfl

theorem countDigitsGo_congr :
    ∀ f1 f2 v, v ≤ f1 → v ≤ f2 → countDigitsGo f1 v = countDigitsGo f2 v := by
  intro f1
  induction f1 with
  | zero =>
    intro f2 v h1 _
    have : v = 0 := by omega
    subst this
    rw [countDigitsGo_zero, countDigitsGo_zero]
  | succ g1 ih =>
    intro f2 v h1 h2
    match v, h2 with
    | 0, _ => rw [countDigitsGo_zero, countDigitsGo_zero]
    | w + 1, h2 =>
      match f2, h2 with
      | g2 + 1, _ =>
        show countDigitsGo g1 ((w + 1) / 10) + 1 = countDigitsGo g2 ((w + 1) / 10) + 1
        have hw : (w + 1) / 10 ≤ w := by
          have := Nat.div_lt_self (Nat.succ_pos w) (show 1 < 10 by omega)
          omega
        rw [ih g2 ((w + 1) / 10) (by omega) (by omega)]

theorem countDigits_zero : countDigits 0 = 0 := rfl

theorem countDigits_succ (v : Nat) (h : 0 < v) :
    countDigits v = countDigits (v / 10) + 1 := by
  match v, h with
  | w + 1, _ =>
    show countDigitsGo w ((w + 1) / 10) + 1 = _
    have hw : (w + 1) / 10 ≤ w := by
      have := Nat.div_lt_self (Nat.succ_pos w) (show 1 < 10 by omega)
      omega
    rw [countDigits, countDigitsGo_congr w ((w + 1) / 10) ((w + 1) / 10) hw le_rfl]

theorem countDigits_pos (v : Nat) (h : 0 < v) : 0 < countDigits v := by
  rw [countDigits_succ v h]; omega

theorem countDigits_le (k : Nat) : ∀ a, a < 10 ^ k → countDigits a ≤ k := by
  induction k with
  | zero =>
    intro a ha
    have : a = 0 := by simpa using ha
    subst this
    exact Nat.le_of_eq countDigits_zero
  | succ k ih =>
    intro a ha
    match a with
    | 0 => rw [countDigits_zero]; omega
    | w + 1 =>
      rw [countDigits_succ _ (Nat.succ_pos w)]
      have hlt : (w + 1) / 10 < 10 ^ k := by
        rw [Nat.div_lt_iff_lt_mul (by omega)]
        calc w + 1 < 10 ^ (k + 1) := ha
        _ = 10 ^ k * 10 := by ring
      exact Nat.succ_le_succ (ih _ hlt)

theorem countDigits_pow (k : Nat) : countDigits (10 ^ k) = k + 1 := by
  induction k with
  | zero => decide
  | succ k ih =>
    rw [countDigits_succ _ (Nat.pos_pow_of_pos _ (by omega))]
    rw [Nat.pow_succ, Nat.mul_div_cancel _ (by omega)]
    omega

theorem uintLen_pos (v : Nat) : 0 < uintLen v := by
  by_cases h : v = 0
  · simp [uintLen, h]
  · simp only [uintLen, if_neg h]
    exact countDigits_pos v (Nat.pos_of_ne_zero h)

theorem uintLen_le (k : Nat) (a : Nat) (h0 : 0 < a) (h : a < 10 ^ k) :
    uintLen a ≤ k := by
  rw [uintLen, if_neg (by omega)]
  exact countDigits_le k a h

theorem digitsBytes_length (c v : Nat) : (digitsBytes c v).length = c := by
  induction c generalizing v with
  | zero => rfl
  | succ c ih => simp [digitsBytes, ih]

theorem natOut_length (v : Nat) : (natOut v).length = uintLen v := by
  rw [natOut, digitsBytes_length]

/-! ## Loop characterisations -/

theorem fillRange_some :
    ∀ cnt i x (l : Buff), i + cnt ≤ l.length →
      fillRange i cnt x l = some (writeAt l i (List.replicate cnt x)) := by
  intro cnt
  induction cnt with
  | zero => intro i x l _; rw [fillRange, List.replicate_zero, writeAt_nil]
  | succ cnt ih =>
    intro i x l h
    rw [fillRange, setP_some x (by omega)]
    show fillRange (i + 1) cnt x (l.set i x) = _
    rw [set_eq_writeAt x (by omega)]
    have hlen : (writeAt l i [x]).length = l.length := writeAt_length (by simp; omega)
    rw [ih (i + 1) x _ (by rw [hlen]; omega)]
    have hwa := writeAt_append (l := l) (i := i) (s := [x])
      (t := List.replicate cnt x) (by simp; omega)
    simp only [List.length_singleton] at hwa
    rw [hwa]
    congr 1

theorem fillRange_some_inv :
    ∀ cnt i x (l b : Buff), fillRange i cnt x l = some b →
      (0 < cnt → i + cnt ≤ l.length) ∧ b.length = l.length := by
  intro cnt
  induction cnt with
  | zero =>
    intro i x l b h
    rw [fillRange] at h
    cases h
    exact ⟨by omega, rfl⟩
  | succ cnt ih =>
    intro i x l b h
    rw [fillRange] at h
    cases hs : setP l i x with
    | none => rw [hs] at h; cases h
    | some l2 =>
      rw [hs] at h
      obtain ⟨hi, hl2⟩ := setP_some_inv hs
      obtain ⟨hcnt, hlen⟩ := ih (i + 1) x l2 b h
      subst hl2
      simp only [List.length_set] at hcnt hlen
      exact ⟨fun _ => by by_cases h0 : 0 < cnt <;> [omega; omega], hlen⟩

theorem writeLoop_length :
    ∀ c i n v (l b : Buff), writeLoop c i n v l = some b → b.length = l.length := by
  intro c
  induction c with
  | zero => intro i n v l b h; rw [writeLoop] at h; cases h; rfl
  | succ c ih =>
    intro i n v l b h
    rw [writeLoop] at h
    cases hs : setP l (n - i - 1) (charMap (v % 10)) with
    | none => rw [hs] at h; cases h
    | some l2 =>
      rw [hs] at h
      obtain ⟨_, hl2⟩ := setP_some_inv hs
      have := ih _ _ _ _ _ h
      subst hl2
      simpa using this

theorem writeLoop_some :
    ∀ c i v (l : Buff) n, c + i ≤ n → n ≤ l.length →
      writeLoop c i n v l = some (writeAt l (n - i - c) (digitsBytes c v)) := by
  intro c
  induction c with
  | zero =>
    intro i v l n _ _
    rw [writeLoop, digitsBytes, writeAt_nil]
  | succ c ih =>
    intro i v l n hc hn
    rw [writeLoop, setP_some _ (by omega)]
    show writeLoop c (i + 1) n (v / 10) (l.set (n - i - 1) (charMap (v % 10))) = _
    rw [set_eq_writeAt _ (by omega)]
    rw [ih (i + 1) (v / 10) (writeAt l (n - i - 1) [charMap (v % 10)]) n (by omega)
      (by rw [writeAt_length (by simp; omega)]; omega)]
    have harg : n - (i + 1) - c = n - i - 1 - c := by omega
    rw [harg]
    have hpos : n - i - 1 - c + c = n - i - 1 := by omega
    have := writeAt_prepend (l := l) (i := n - i - 1 - c)
      (s := digitsBytes c (v / 10)) (t := [charMap (v % 10)])
      (by rw [digitsBytes_length]; simp; omega)
    rw [digitsBytes_length, hpos] at this
    rw [this]
    have hidx : n - i - 1 - c = n - i - (c + 1) := by omega
    rw [hidx, digitsBytes]

/-! ## Unsigned and signed integer encoder specifications -/

theorem uintWrite_ok (v : Nat) (l : Buff) (h : uintLen v ≤ l.length) :
    uintWrite v l = .ok (natOut v ++ l.drop (uintLen v)) (uintLen v) := by
  rw [uintWrite, if_neg (by omega)]
  rw [writeLoop_some (uintLen v) 0 v l (uintLen v) (by omega) h]
  show WRes.ok (writeAt l (uintLen v - 0 - uintLen v) (digitsBytes (uintLen v) v)) _ = _
  rw [Nat.sub_zero, Nat.sub_self, writeAt_zero]
  rw [show digitsBytes (uintLen v) v = natOut v from rfl, natOut_length]

theorem uintWrite_err (v : Nat) (l : Buff) (h : l.length < uintLen v) :
    uintWrite v l = .error .BufferLength l := by
  rw [uintWrite, if_pos h]

theorem uintWrite_ok_inv {v : Nat} {l b : Buff} {n : Nat}
    (h : uintWrite v l = .ok b n) :
    n = uintLen v ∧ uintLen v ≤ l.length ∧ b.length = l.length := by
  rw [uintWrite] at h
  by_cases hl : l.length < uintLen v
  · rw [if_pos hl] at h; cases h
  · rw [if_neg hl] at h
    cases hw : writeLoop (uintLen v) 0 (uintLen v) v l with
    | none => rw [hw] at h; cases h
    | some b2 =>
      rw [hw] at h
      cases h
      exact ⟨rfl, by omega, writeLoop_length _ _ _ _ _ _ hw⟩

theorem sintLen_nonneg_eq (v : Int) (h : ¬ v < 0) : sintLen v = uintLen v.natAbs := by
  by_cases h0 : v = 0
  · subst h0; rfl
  · rw [sintLen, if_neg h0, if_neg h, uintLen,
      if_neg (by simpa using h0)]
    omega

theorem sintLen_neg_eq (v : Int) (h : v < 0) : sintLen v = 1 + uintLen v.natAbs := by
  rw [sintLen, if_neg (by omega), if_pos h, uintLen, if_neg (by simp; omega)]

theorem sintLen_pos (v : Int) : 0 < sintLen v := by
  by_cases h : v < 0
  · rw [sintLen_neg_eq v h]; omega
  · rw [sintLen_nonneg_eq v h]; exact uintLen_pos _

theorem sintOut_length (v : Int) : (sintOut v).length = sintLen v := by
  by_cases h : v < 0
  · rw [sintOut, if_pos h, sintLen_neg_eq v h]
    simp [natOut_length]
    omega
  · rw [sintOut, if_neg h, sintLen_nonneg_eq v h, natOut_length]

theorem sintWrite_ok (v : Int) (l : Buff) (h : sintLen v ≤ l.length) :
    sintWrite v l = .ok (sintOut v ++ l.drop (sintLen v)) (sintLen v) := by
  rw [sintWrite, if_neg (by omega)]
  by_cases hv : v < 0
  · rw [if_pos hv]
    have h1 : 0 < l.length := by have := sintLen_pos v; omega
    rw [setP_some _ h1]
    show (match writeLoop (sintLen v - 1) 0 (sintLen v) v.natAbs (l.set 0 45) with
      | none => WRes.crash
      | some b2 => WRes.ok b2 (sintLen v)) = _
    rw [set_eq_writeAt _ h1]
    have hlen : (writeAt l 0 [45]).length = l.length := writeAt_length (by simp; omega)
    rw [writeLoop_some (sintLen v - 1) 0 v.natAbs (writeAt l 0 [45]) (sintLen v)
      (by omega) (by omega)]
    have hc : sintLen v - 0 - (sintLen v - 1) = 1 := by
      have := sintLen_pos v; omega
    rw [hc]
    have hd : digitsBytes (sintLen v - 1) v.natAbs = natOut v.natAbs := by
      rw [natOut, sintLen_neg_eq v hv, Nat.add_sub_cancel_left]
    have hwa := writeAt_append (l := l) (i := 0) (s := [45])
      (t := digitsBytes (sintLen v - 1) v.natAbs)
      (by rw [digitsBytes_length]; simp; have := sintLen_neg_eq v hv;
          have := natOut_length v.natAbs; omega)
    simp only [List.length_singleton, Nat.zero_add] at hwa
    rw [hwa, hd]
    have hout : (45 : Nat) :: natOut v.natAbs = sintOut v := by
      rw [sintOut, if_pos hv]
    rw [show ([45] ++ natOut v.natAbs : List Nat) = 45 :: natOut v.natAbs from rfl]
    rw [hout, writeAt_zero, sintOut_length]
  · rw [if_neg hv]
    rw [writeLoop_some (sintLen v) 0 v.natAbs l (sintLen v) (by omega) h]
    show WRes.ok (writeAt l (sintLen v - 0 - sintLen v) (digitsBytes (sintLen v) v.natAbs)) _ = _
    rw [Nat.sub_zero, Nat.sub_self, writeAt_zero]
    have hd : digitsBytes (sintLen v) v.natAbs = natOut v.natAbs := by
      rw [natOut, sintLen_nonneg_eq v hv]
    have hout : natOut v.natAbs = sintOut v := by rw [sintOut, if_neg hv]
    rw [hd, hout, sintOut_length]

theorem sintWrite_err (v : Int) (l : Buff) (h : l.length < sintLen v) :
    sintWrite v l = .error .BufferLength l := by
  rw [sintWrite, if_pos h]

theorem sintWrite_ok_inv {v : Int} {l b : Buff} {n : Nat}
    (h : sintWrite v l = .ok b n) :
    n = sintLen v ∧ sintLen v ≤ l.length ∧ b.length = l.length := by
  rw [sintWrite] at h
  by_cases hl : l.length < sintLen v
  · rw [if_pos hl] at h; cases h
  · rw [if_neg hl] at h
    by_cases hv : v < 0
    · rw [if_pos hv] at h
      cases hs : setP l 0 45 with
      | none => rw [hs] at h; cases h
      | some l2 =>
        rw [hs] at h
        obtain ⟨_, hl2⟩ := setP_some_inv hs
        have h2 : (match writeLoop (sintLen v - 1) 0 (sintLen v) v.natAbs l2 with
          | none => WRes.crash
          | some b2 => WRes.ok b2 (sintLen v)) = WRes.ok b n := h
        cases hw : writeLoop (sintLen v - 1) 0 (sintLen v) v.natAbs l2 with
        | none => rw [hw] at h2; cases h2
        | some b2 =>
          rw [hw] at h2
          cases h2
          have := writeLoop_length _ _ _ _ _ _ hw
          subst hl2
          simp only [List.length_set] at this
          exact ⟨rfl, by omega, this⟩
    · rw [if_neg hv] at h
      cases hw : writeLoop (sintLen v) 0 (sintLen v) v.natAbs l with
      | none => rw [hw] at h; cases h
      | some b2 =>
        rw [hw] at h
        cases h
        exact ⟨rfl, by omega, writeLoop_length _ _ _ _ _ _ hw⟩

/-! ## The unsigned macro instantiated at `isize` -/

theorem intCountDigitsGo_ofNat :
    ∀ fuel (m : Nat), intCountDigitsGo fuel (Int.ofNat m) = countDigitsGo fuel m := by
  intro fuel
  induction fuel with
  | zero => intro m; cases m <;> rfl
  | succ f ih =>
    intro m
    match m with
    | 0 => simp [intCountDigitsGo, countDigitsGo_zero]
    | w + 1 =>
      have hp : (0:Int) < Int.ofNat (w + 1) := by
        rw [Int.ofNat_eq_coe]
        exact_mod_cast Nat.succ_pos w
      rw [intCountDigitsGo, if_pos hp]
      rw [show (Int.ofNat (w + 1)).tdiv 10 = Int.ofNat ((w + 1) / 10) from rfl]
      rw [ih ((w + 1) / 10)]
      rfl

theorem isizeLen_ofNat (m : Nat) : isizeLen (Int.ofNat m) = uintLen m := by
  by_cases h : m = 0
  · subst h; rfl
  · rw [isizeLen, if_neg (by simpa using h), uintLen, if_neg h,
      show (Int.ofNat m).toNat = m from rfl, intCountDigitsGo_ofNat m m]
    rfl

theorem isizeLen_neg (v : Int) (h : v < 0) : isizeLen v = 0 := by
  rw [isizeLen, if_neg (by omega), show v.toNat = 0 by omega]
  rfl

theorem intWriteLoop_ofNat :
    ∀ c i n (m : Nat) (l : Buff), intWriteLoop c i n (Int.ofNat m) l = writeLoop c i n m l := by
  intro c
  induction c with
  | zero => intro i n m l; rfl
  | succ c ih =>
    intro i n m l
    rw [intWriteLoop, writeLoop]
    rw [show ((Int.ofNat m).tmod 10).toNat = m % 10 from rfl]
    cases hs : setP l (n - i - 1) (charMap (m % 10)) with
    | none => rfl
    | some b =>
      show intWriteLoop c (i + 1) n ((Int.ofNat m).tdiv 10) b = writeLoop c (i + 1) n (m / 10) b
      rw [show (Int.ofNat m).tdiv 10 = Int.ofNat (m / 10) from rfl, ih]

theorem isizeWrite_ofNat (m : Nat) (l : Buff) :
    isizeWrite (Int.ofNat m) l = uintWrite m l := by
  rw [isizeWrite, uintWrite, isizeLen_ofNat, intWriteLoop_ofNat]

theorem isizeWrite_neg (v : Int) (l : Buff) (h : v < 0) :
    isizeWrite v l = .ok l 0 := by
  rw [isizeWrite, isizeLen_neg v h, if_neg (by omega)]
  rfl

theorem isizeOut_length (v : Int) : (isizeOut v).length = isizeLen v := by
  by_cases h : v < 0
  · rw [isizeOut, if_pos h, isizeLen_neg v h]; rfl
  · have hof : Int.ofNat v.toNat = v := by
      rw [Int.ofNat_eq_coe]
      exact Int.toNat_of_nonneg (by omega)
    rw [isizeOut, if_neg h, natOut_length]
    conv_rhs => rw [← hof]
    rw [isizeLen_ofNat]

theorem isizeWrite_ok (v : Int) (l : Buff) (h : isizeLen v ≤ l.length) :
    isizeWrite v l = .ok (isizeOut v ++ l.drop (isizeLen v)) (isizeLen v) := by
  by_cases hv : v < 0
  · rw [isizeWrite_neg v l hv, isizeLen_neg v hv, isizeOut, if_pos hv]
    simp
  · have hof : Int.ofNat v.toNat = v := by
      exact_mod_cast Int.toNat_of_nonneg (by omega : (0:Int) ≤ v)
    have hlen : isizeLen v = uintLen v.toNat := by
      conv_lhs => rw [← hof]
      rw [isizeLen_ofNat]
    rw [isizeOut, if_neg hv]
    conv_lhs => rw [← hof]
    rw [isizeWrite_ofNat, hlen]
    exact uintWrite_ok v.toNat l (by omega)

theorem isizeWrite_err (v : Int) (l : Buff) (h : l.length < isizeLen v) :
    isizeWrite v l = .error .BufferLength l := by
  rw [isizeWrite, if_pos h]

theorem intWriteLoop_length :
    ∀ c i n (v : Int) (l b : Buff), intWriteLoop c i n v l = some b → b.length = l.length := by
  intro c
  induction c with
  | zero => intro i n v l b h; rw [intWriteLoop] at h; cases h; rfl
  | succ c ih =>
    intro i n v l b h
    rw [intWriteLoop] at h
    cases hs : setP l (n - i - 1) (charMap (v.tmod 10).toNat) with
    | none => rw [hs] at h; cases h
    | some l2 =>
      rw [hs] at h
      obtain ⟨_, hl2⟩ := setP_some_inv hs
      have := ih _ _ _ _ _ h
      subst hl2
      simpa using this

theorem isizeWrite_ok_inv {v : Int} {l b : Buff} {n : Nat}
    (h : isizeWrite v l = .ok b n) :
    n = isizeLen v ∧ isizeLen v ≤ l.length ∧ b.length = l.length := by
  rw [isizeWrite] at h
  by_cases hl : l.length < isizeLen v
  · rw [if_pos hl] at h; cases h
  · rw [if_neg hl] at h
    cases hw : intWriteLoop (isizeLen v) 0 (isizeLen v) v l with
    | none => rw [hw] at h; cases h
    | some b2 =>
      rw [hw] at h
      cases h
      exact ⟨rfl, by omega, intWriteLoop_length _ _ _ _ _ _ hw⟩

/-! ## String, char and hex encoder specifications -/

theorem strWrite_ok (s : List Nat) (l : Buff) (h : s.length ≤ l.length) :
    strWrite s l = .ok (s ++ l.drop s.length) s.length := by
  rw [strWrite, if_neg (by omega)]

theorem strWrite_err (s : List Nat) (l : Buff) (h : l.length < s.length) :
    strWrite s l = .error .BufferLength l := by
  rw [strWrite, if_pos (by omega)]

theorem strWrite_ok_inv {s : List Nat} {l b : Buff} {n : Nat}
    (h : strWrite s l = .ok b n) :
    n = s.length ∧ s.length ≤ l.length ∧ b.length = l.length := by
  rw [strWrite] at h
  by_cases hl : s.length > l.length
  · rw [if_pos hl] at h; cases h
  · rw [if_neg hl] at h
    cases h
    simp
    omega

theorem charWrite_ok (c : Char) (l : Buff) (h : 1 ≤ l.length) :
    charWrite c l = .ok ((c.toNat % 256) :: l.drop 1) 1 := by
  rw [charWrite, if_neg (by omega), setP_some _ (by omega), set_eq_writeAt _ (by omega)]
  rw [show writeAt l 0 [c.toNat % 256] = [c.toNat % 256] ++ l.drop 1 from writeAt_zero l _]
  rfl

theorem charWrite_err (c : Char) (l : Buff) (h : l.length < 1) :
    charWrite c l = .error .BufferLength l := by
  rw [charWrite, if_pos (by omega)]

theorem charWrite_ok_inv {c : Char} {l b : Buff} {n : Nat}
    (h : charWrite c l = .ok b n) :
    n = 1 ∧ 1 ≤ l.length ∧ b.length = l.length := by
  rw [charWrite] at h
  by_cases hl : 1 > l.length
  · rw [if_pos hl] at h; cases h
  · rw [if_neg hl] at h
    cases hs : setP l 0 (c.toNat % 256) with
    | none => rw [hs] at h; cases h
    | some l2 =>
      rw [hs] at h
      cases h
      obtain ⟨_, hl2⟩ := setP_some_inv hs
      subst hl2
      simp
      omega

theorem hexOut_length (b : List Nat) : (hexOut b).length = b.length * 2 := by
  induction b with
  | nil => rfl
  | cons v rest ih => simp [hexOut, ih]; omega

theorem hexLoop_some :
    ∀ (b : List Nat) (i : Nat) (l : Buff), i * 2 + b.length * 2 ≤ l.length →
      hexLoop b i l = some (writeAt l (i * 2) (hexOut b)) := by
  intro b
  induction b with
  | nil => intro i l _; rw [hexLoop, hexOut, writeAt_nil]
  | cons v rest ih =>
    intro i l h
    simp only [List.length_cons] at h
    rw [hexLoop, setP_some _ (by omega)]
    show (match setP (l.set (i * 2) (hexByte (v / 16 % 16))) (i * 2 + 1) (hexByte (v % 16)) with
      | none => none
      | some b2 => hexLoop rest (i + 1) b2) = _
    rw [set_eq_writeAt _ (by omega)]
    have hlen1 : (writeAt l (i * 2) [hexByte (v / 16 % 16)]).length = l.length :=
      writeAt_length (by simp; omega)
    rw [setP_some _ (by omega)]
    show hexLoop rest (i + 1)
        ((writeAt l (i * 2) [hexByte (v / 16 % 16)]).set (i * 2 + 1) (hexByte (v % 16))) = _
    rw [set_eq_writeAt _ (by omega)]
    have hpair := writeAt_append (l := l) (i := i * 2) (s := [hexByte (v / 16 % 16)])
      (t := [hexByte (v % 16)]) (by simp; omega)
    simp only [List.length_singleton, List.singleton_append] at hpair
    rw [hpair]
    have hlen2 : (writeAt l (i * 2) [hexByte (v / 16 % 16), hexByte (v % 16)]).length
        = l.length := writeAt_length (by simp; omega)
    rw [ih (i + 1) _ (by rw [hlen2]; omega)]
    have hrest := writeAt_append (l := l) (i := i * 2)
      (s := [hexByte (v / 16 % 16), hexByte (v % 16)]) (t := hexOut rest)
      (by simp [hexOut_length]; omega)
    norm_num at hrest
    rw [show (i + 1) * 2 = i * 2 + 2 from by ring, hrest]
    rfl

theorem hexLoop_length :
    ∀ (b : List Nat) (i : Nat) (l b2 : Buff), hexLoop b i l = some b2 → b2.length = l.length := by
  intro b
  induction b with
  | nil => intro i l b2 h; rw [hexLoop] at h; cases h; rfl
  | cons v rest ih =>
    intro i l b2 h
    rw [hexLoop] at h
    cases hs1 : setP l (i * 2) (hexByte (v / 16 % 16)) with
    | none => rw [hs1] at h; cases h
    | some l1 =>
      rw [hs1] at h
      have h2 : (match setP l1 (i * 2 + 1) (hexByte (v % 16)) with
        | none => none
        | some b3 => hexLoop rest (i + 1) b3) = some b2 := h
      cases hs2 : setP l1 (i * 2 + 1) (hexByte (v % 16)) with
      | none => rw [hs2] at h2; cases h2
      | some l2 =>
        rw [hs2] at h2
        obtain ⟨_, he1⟩ := setP_some_inv hs1
        obtain ⟨_, he2⟩ := setP_some_inv hs2
        have := ih _ _ _ h2
        subst he1 he2
        simpa using this

theorem hexWrite_ok (b : List Nat) (l : Buff) (h : b.length * 2 ≤ l.length) :
    hexWrite b l = .ok (hexOut b ++ l.drop (b.length * 2)) (b.length * 2) := by
  rw [hexWrite, if_neg (by omega), hexLoop_some b 0 l (by omega)]
  rw [show 0 * 2 = 0 from rfl, writeAt_zero, hexOut_length]

theorem hexWrite_err (b : List Nat) (l : Buff) (h : l.length < b.length * 2) :
    hexWrite b l = .error .BufferLength l := by
  rw [hexWrite, if_pos h]

theorem hexWrite_ok_inv {bs : List Nat} {l b : Buff} {n : Nat}
    (h : hexWrite bs l = .ok b n) :
    n = bs.length * 2 ∧ bs.length * 2 ≤ l.length ∧ b.length = l.length := by
  rw [hexWrite] at h
  by_cases hl : l.length < bs.length * 2
  · rw [if_pos hl] at h; cases h
  · rw [if_neg hl] at h
    cases hw : hexLoop bs 0 l with
    | none => rw [hw] at h; cases h
    | some b2 =>
      rw [hw] at h
      cases h
      exact ⟨rfl, by omega, hexLoop_length _ _ _ _ hw⟩

/-! ## Fractional encoder: arithmetic facts -/

theorem natAbs_tmod (a b : Int) : (a.tmod b).natAbs = a.natAbs % b.natAbs := by
  cases a <;> cases b <;> simp [Int.tmod, Int.natAbs_neg] <;> rfl

theorem decPart_nonneg (v d : Int) : 0 ≤ decPart v d := by
  rw [decPart]; positivity

theorem decPart_natAbs (v d : Int) : (decPart v d).natAbs = v.natAbs % d.natAbs := by
  rw [decPart, Int.natAbs_ofNat, natAbs_tmod]

theorem decPart_lt_pow (v : Int) (k : Nat) :
    (decPart v ((10 : Int) ^ k)).natAbs < 10 ^ k := by
  rw [decPart_natAbs, Int.natAbs_pow]
  exact Nat.mod_lt _ (Nat.pos_pow_of_pos _ (by omega))

theorem sintLen_pow (k : Nat) : sintLen ((10 : Int) ^ k) = k + 1 := by
  have hpos : (0 : Int) < 10 ^ k := by positivity
  rw [sintLen_nonneg_eq _ (by omega), Int.natAbs_pow]
  rw [show ((10 : Int).natAbs) = 10 from rfl, uintLen,
    if_neg (by have := Nat.pos_pow_of_pos k (show 0 < 10 by omega); omega)]
  exact countDigits_pow k

theorem sintLen_decPart_le (v : Int) (k : Nat)
    (hdec : decPart v ((10 : Int) ^ k) ≠ 0) :
    sintLen (decPart v ((10 : Int) ^ k)) ≤ k := by
  rw [sintLen_nonneg_eq _ (by have := decPart_nonneg v ((10 : Int) ^ k); omega)]
  refine uintLen_le k _ ?_ (decPart_lt_pow v k)
  have := decPart_nonneg v ((10 : Int) ^ k)
  omega

theorem fracPadding_eq (v : Int) (k : Nat)
    (hdec : decPart v ((10 : Int) ^ k) ≠ 0) :
    fracPadding v ((10 : Int) ^ k) = k - sintLen (decPart v ((10 : Int) ^ k)) := by
  have h1 := sintLen_decPart_le v k hdec
  rw [fracPadding, if_pos (by rw [sintLen_pow]; omega), sintLen_pow]
  omega

theorem eq_zero_of_parts (v d : Int) (hd : d ≠ 0)
    (hdec : decPart v d = 0) (hint : intPart v d = 0) : v = 0 := by
  have := Int.tdiv_add_tmod v d
  rw [intPart] at hint
  rw [decPart] at hdec
  have hmod : v.tmod d = 0 := by
    have := Int.natAbs_eq (v.tmod d)
    omega
  rw [hint, hmod] at this
  omega

theorem no_sign_of_decPart_zero (v d : Int) (hd : 0 < d)
    (hdec : decPart v d = 0) : ¬ (intPart v d = 0 ∧ v < 0) := by
  rintro ⟨hint, hneg⟩
  have := eq_zero_of_parts v d (by omega) hdec hint
  omega

theorem fracLen_parts (v : Int) (k : Nat)
    (hdec : decPart v ((10 : Int) ^ k) ≠ 0) :
    fracLen v ((10 : Int) ^ k) =
      (if intPart v ((10 : Int) ^ k) = 0 ∧ v < 0 then 1 else 0)
        + sintLen (intPart v ((10 : Int) ^ k)) + 1
        + fracPadding v ((10 : Int) ^ k) + sintLen (decPart v ((10 : Int) ^ k)) := by
  rw [fracLen, if_neg hdec, fracPadding_eq v k hdec, sintLen_pow]
  have h1 := sintLen_decPart_le v k hdec
  by_cases hs : intPart v ((10 : Int) ^ k) = 0 ∧ v < 0
  · rw [if_pos hs, if_pos hs]; omega
  · rw [if_neg hs, if_neg hs]; omega

theorem fracOut_length (v : Int) (k : Nat) :
    (fracOut v ((10 : Int) ^ k)).length = fracLen v ((10 : Int) ^ k) := by
  by_cases hdec : decPart v ((10 : Int) ^ k) = 0
  · have hns := no_sign_of_decPart_zero v ((10 : Int) ^ k) (by positivity) hdec
    rw [fracOut, if_neg hns, if_pos hdec, fracLen, if_pos hdec]
    simp [sintOut_length]
  · rw [fracOut, if_neg hdec, fracLen_parts v k hdec]
    by_cases hs : intPart v ((10 : Int) ^ k) = 0 ∧ v < 0
    · rw [if_pos hs, if_pos hs]
      simp [sintOut_length]
      omega
    · rw [if_neg hs, if_neg hs]
      simp [sintOut_length]
      omega

/-! ## Fractional encoder: write specification -/

theorem fracDecStep_eq_of {v d : Int} {b2 sub2 sb b4 sub3 sb3 : Buff} {n2 m3 : Nat}
    (h1 : sliceFrom b2 n2 = some sub2)
    (h2 : charWrite '.' sub2 = .ok sb 1)
    (h3 : fillRange (n2 + 1) (fracPadding v d) 48 (b2.take n2 ++ sb) = some b4)
    (h4 : sliceFrom b4 (n2 + 1 + fracPadding v d) = some sub3)
    (h5 : sintWrite (decPart v d) sub3 = .ok sb3 m3) :
    fracDecStep v d b2 n2 =
      .ok (b4.take (n2 + 1 + fracPadding v d) ++ sb3) (n2 + 1 + fracPadding v d + m3) := by
  simp only [fracDecStep, h1, h2, h3, h4, h5]

theorem fracDecStep_ok (v d : Int) (k : Nat) (hd : d = (10 : Int) ^ k)
    (hdec : decPart v d ≠ 0) (l : Buff) (s : List Nat)
    (h : s.length + 1 + fracPadding v d + sintLen (decPart v d) ≤ l.length) :
    fracDecStep v d (writeAt l 0 s) s.length =
      .ok (writeAt l 0
            (s ++ 46 :: (List.replicate (fracPadding v d) 48 ++ sintOut (decPart v d))))
        (s.length + 1 + fracPadding v d + sintLen (decPart v d)) := by
  have hsl : s.length ≤ l.length := by omega
  have hb2 : writeAt l 0 s = s ++ l.drop s.length := writeAt_zero l s
  have hb2len : (s ++ l.drop s.length).length = l.length := by simp; omega
  have hdrop : (s ++ l.drop s.length).drop s.length = l.drop s.length :=
    List.drop_left' rfl
  have htake : (s ++ l.drop s.length).take s.length = s :=
    List.take_left' rfl
  have h1 : sliceFrom (writeAt l 0 s) s.length = some (l.drop s.length) := by
    rw [hb2, sliceFrom_some (by omega), hdrop]
  have h2 : charWrite '.' (l.drop s.length) = .ok (46 :: (l.drop s.length).drop 1) 1 := by
    rw [charWrite_ok '.' _ (by simp; omega)]
    rfl
  have hb3 : (writeAt l 0 s).take s.length ++ (46 :: (l.drop s.length).drop 1)
      = writeAt l 0 (s ++ [46]) := by
    rw [hb2, htake, List.drop_drop, writeAt_zero]
    simp
  have hb3len : (writeAt l 0 (s ++ [46])).length = l.length :=
    writeAt_length (by simp; omega)
  have h3 : fillRange (s.length + 1) (fracPadding v d) 48 (writeAt l 0 (s ++ [46]))
      = some (writeAt l 0 ((s ++ [46]) ++ List.replicate (fracPadding v d) 48)) := by
    rw [fillRange_some _ _ _ _ (by rw [hb3len]; omega)]
    have hwa := writeAt_append (l := l) (i := 0) (s := s ++ [46])
      (t := List.replicate (fracPadding v d) 48) (by simp; omega)
    simp only [List.length_append, List.length_singleton, Nat.zero_add,
      List.length_replicate] at hwa
    rw [← hwa]
  have hb4len : (writeAt l 0 ((s ++ [46]) ++ List.replicate (fracPadding v d) 48)).length
      = l.length := writeAt_length (by simp; omega)
  have hpre : ((s ++ [46]) ++ List.replicate (fracPadding v d) 48).length
      = s.length + 1 + fracPadding v d := by simp; omega
  have h4 : sliceFrom (writeAt l 0 ((s ++ [46]) ++ List.replicate (fracPadding v d) 48))
      (s.length + 1 + fracPadding v d)
      = some (l.drop (s.length + 1 + fracPadding v d)) := by
    rw [sliceFrom_some (by rw [hb4len]; omega), writeAt_zero, hpre,
      List.drop_left' hpre]
  have h5 : sintWrite (decPart v d) (l.drop (s.length + 1 + fracPadding v d))
      = .ok (sintOut (decPart v d) ++
          (l.drop (s.length + 1 + fracPadding v d)).drop (sintLen (decPart v d)))
        (sintLen (decPart v d)) := by
    rw [sintWrite_ok _ _ (by simp; omega)]
  have h3x : fillRange (s.length + 1) (fracPadding v d) 48
      ((writeAt l 0 s).take s.length ++ (46 :: (l.drop s.length).drop 1))
      = some (writeAt l 0 ((s ++ [46]) ++ List.replicate (fracPadding v d) 48)) := by
    rw [hb3]
    exact h3
  rw [fracDecStep_eq_of h1 h2 h3x h4 h5]
  congr 1
  rw [writeAt_zero l ((s ++ [46]) ++ List.replicate (fracPadding v d) 48),
    List.take_left' hpre, List.drop_drop,
    writeAt_zero l (s ++ 46 :: (List.replicate (fracPadding v d) 48 ++ sintOut (decPart v d)))]
  simp only [List.append_assoc, List.cons_append, List.singleton_append,
    List.length_append, List.length_cons, List.length_replicate, sintOut_length]
  rw [show s.length + 1 + fracPadding v d + sintLen (decPart v d)
    = s.length + (fracPadding v d + sintLen (decPart v d) + 1) from by omega]
  simp

theorem fracWrite_eq_of {v d : Int} {l b1 sub1 sb : Buff} {n1 m : Nat}
    (h0 : fracSignStep v d l = some (b1, n1))
    (h1 : sliceFrom b1 n1 = some sub1)
    (h2 : sintWrite (intPart v d) sub1 = .ok sb m) :
    fracWrite v d l =
      if decPart v d = 0 then .ok (b1.take n1 ++ sb) (n1 + m)
      else fracDecStep v d (b1.take n1 ++ sb) (n1 + m) := by
  simp only [fracWrite, h0, h1, h2]

theorem fracWrite_ok (v d : Int) (k : Nat) (hd : d = (10 : Int) ^ k) (l : Buff)
    (h : fracLen v d ≤ l.length) :
    fracWrite v d l = .ok (fracOut v d ++ l.drop (fracLen v d)) (fracLen v d) := by
  subst hd
  by_cases hdec : decPart v ((10 : Int) ^ k) = 0
  · have hns : ¬ (intPart v ((10 : Int) ^ k) = 0 ∧ v < 0) :=
      no_sign_of_decPart_zero v _ (by positivity) hdec
    have hlen : fracLen v ((10 : Int) ^ k) = sintLen (intPart v ((10 : Int) ^ k)) := by
      rw [fracLen, if_pos hdec]
    have h0 : fracSignStep v ((10 : Int) ^ k) l = some (l, 0) := by
      rw [fracSignStep, if_neg hns]
    have h1 : sliceFrom l 0 = some l := by
      rw [sliceFrom_some (by omega), List.drop_zero]
    have h2 : sintWrite (intPart v ((10 : Int) ^ k)) l
        = .ok (sintOut (intPart v ((10 : Int) ^ k))
            ++ l.drop (sintLen (intPart v ((10 : Int) ^ k))))
          (sintLen (intPart v ((10 : Int) ^ k))) := sintWrite_ok _ _ (by omega)
    rw [fracWrite_eq_of h0 h1 h2, if_pos hdec]
    rw [fracOut, if_neg hns, if_pos hdec, hlen]
    simp
  · have h1len := fracLen_parts v k hdec
    set sgn : List Nat := if intPart v ((10 : Int) ^ k) = 0 ∧ v < 0 then [45] else []
      with hsgn
    have hsl : sgn.length = if intPart v ((10 : Int) ^ k) = 0 ∧ v < 0 then 1 else 0 := by
      by_cases hs : intPart v ((10 : Int) ^ k) = 0 ∧ v < 0 <;> simp [hsgn, hs]
    have h0 : fracSignStep v ((10 : Int) ^ k) l = some (writeAt l 0 sgn, sgn.length) := by
      by_cases hs : intPart v ((10 : Int) ^ k) = 0 ∧ v < 0
      · rw [fracSignStep, if_pos hs, setP_some _ (by rw [if_pos hs] at h1len; omega),
          set_eq_writeAt _ (by rw [if_pos hs] at h1len; omega)]
        rw [hsgn, if_pos hs]
        rfl
      · rw [fracSignStep, if_neg hs, hsgn, if_neg hs, writeAt_nil]
        rfl
    have hsgn_le : sgn.length + sintLen (intPart v ((10 : Int) ^ k)) + 1
        + fracPadding v ((10 : Int) ^ k) + sintLen (decPart v ((10 : Int) ^ k))
        ≤ l.length := by
      rw [hsl]
      by_cases hs : intPart v ((10 : Int) ^ k) = 0 ∧ v < 0
      · rw [if_pos hs]; rw [if_pos hs] at h1len; omega
      · rw [if_neg hs]; rw [if_neg hs] at h1len; omega
    have h1 : sliceFrom (writeAt l 0 sgn) sgn.length = some (l.drop sgn.length) := by
      rw [writeAt_zero, sliceFrom_some (by simp)]
      rw [List.drop_left' rfl]
    have h2 : sintWrite (intPart v ((10 : Int) ^ k)) (l.drop sgn.length)
        = .ok (sintOut (intPart v ((10 : Int) ^ k))
            ++ (l.drop sgn.length).drop (sintLen (intPart v ((10 : Int) ^ k))))
          (sintLen (intPart v ((10 : Int) ^ k))) := sintWrite_ok _ _ (by simp; omega)
    rw [fracWrite_eq_of h0 h1 h2, if_neg hdec]
    have hb2 : (writeAt l 0 sgn).take sgn.length
        ++ (sintOut (intPart v ((10 : Int) ^ k))
            ++ (l.drop sgn.length).drop (sintLen (intPart v ((10 : Int) ^ k))))
        = writeAt l 0 (sgn ++ sintOut (intPart v ((10 : Int) ^ k))) := by
      rw [writeAt_zero, List.take_left' rfl, List.drop_drop, writeAt_zero]
      simp only [List.append_assoc, List.length_append, sintOut_length]
    have hn2 : sgn.length + sintLen (intPart v ((10 : Int) ^ k))
        = (sgn ++ sintOut (intPart v ((10 : Int) ^ k))).length := by
      simp [sintOut_length]
    rw [hb2, hn2, fracDecStep_ok v _ k rfl hdec l _ (by simp [sintOut_length]; omega)]
    congr 1
    · rw [writeAt_zero, fracOut, if_neg hdec, ← hsgn]
      simp only [List.append_assoc, List.cons_append, List.length_append,
        List.length_cons, List.length_replicate, sintOut_length]
      rw [show fracLen v ((10 : Int) ^ k) = sgn.length
        + (sintLen (intPart v ((10 : Int) ^ k)) + (1 + (fracPadding v ((10 : Int) ^ k)
          + sintLen (decPart v ((10 : Int) ^ k))))) from by
        rw [hsl]
        by_cases hs : intPart v ((10 : Int) ^ k) = 0 ∧ v < 0
        · rw [if_pos hs]; rw [if_pos hs] at h1len; omega
        · rw [if_neg hs]; rw [if_neg hs] at h1len; omega]
      simp
      congr 1
      omega
    · rw [← hn2, hsl]
      by_cases hs : intPart v ((10 : Int) ^ k) = 0 ∧ v < 0
      · rw [if_pos hs]; rw [if_pos hs] at h1len; omega
      · rw [if_neg hs]; rw [if_neg hs] at h1len; omega

theorem fracDecStep_ok_inv {v d : Int} {b2 b : Buff} {n2 n : Nat}
    (h : fracDecStep v d b2 n2 = .ok b n) :
    n = n2 + 1 + fracPadding v d + sintLen (decPart v d)
      ∧ n ≤ b2.length ∧ b.length = b2.length ∧ n2 ≤ b2.length := by
  rw [fracDecStep] at h
  cases hs1 : sliceFrom b2 n2 with
  | none => rw [hs1] at h; cases h
  | some sub2 =>
    simp only [hs1] at h
    obtain ⟨hn2, hsub2⟩ := sliceFrom_some_inv hs1
    cases hc : charWrite '.' sub2 with
    | error e sb => simp only [hc] at h; cases h
    | crash => simp only [hc] at h; cases h
    | ok sb m2 =>
      simp only [hc] at h
      obtain ⟨hm2, hc1, hclen⟩ := charWrite_ok_inv hc
      subst hm2
      have hsub2len : sub2.length = b2.length - n2 := by
        subst hsub2; simp
      have hb3len : (b2.take n2 ++ sb).length = b2.length := by
        simp
        omega
      cases hf : fillRange (n2 + 1) (fracPadding v d) 48 (b2.take n2 ++ sb) with
      | none => simp only [hf] at h; cases h
      | some b4 =>
        simp only [hf] at h
        obtain ⟨_, hb4len⟩ := fillRange_some_inv _ _ _ _ _ hf
        cases hs3 : sliceFrom b4 (n2 + 1 + fracPadding v d) with
        | none => simp only [hs3] at h; cases h
        | some sub3 =>
          simp only [hs3] at h
          obtain ⟨hn4, hsub3⟩ := sliceFrom_some_inv hs3
          cases hw : sintWrite (decPart v d) sub3 with
          | error e sb3 => simp only [hw] at h; cases h
          | crash => simp only [hw] at h; cases h
          | ok sb3 m3 =>
            simp only [hw] at h
            obtain ⟨hm3, hwle, hwlen⟩ := sintWrite_ok_inv hw
            cases h
            have hsub3len : sub3.length = b4.length - (n2 + 1 + fracPadding v d) := by
              subst hsub3; simp
            refine ⟨by omega, by omega, ?_, by omega⟩
            simp
            omega

theorem fracWrite_ok_inv {v d : Int} {l b : Buff} {n : Nat} (k : Nat)
    (hd : d = (10 : Int) ^ k) (h : fracWrite v d l = .ok b n) :
    n = fracLen v d ∧ fracLen v d ≤ l.length ∧ b.length = l.length := by
  subst hd
  rw [fracWrite] at h
  cases h0 : fracSignStep v ((10 : Int) ^ k) l with
  | none => rw [h0] at h; cases h
  | some pair =>
    obtain ⟨b1, n1⟩ := pair
    simp only [h0] at h
    have hsign : b1.length = l.length ∧ n1 ≤ l.length
        ∧ n1 = (if intPart v ((10 : Int) ^ k) = 0 ∧ v < 0 then 1 else 0) := by
      rw [fracSignStep] at h0
      by_cases hs : intPart v ((10 : Int) ^ k) = 0 ∧ v < 0
      · rw [if_pos hs] at h0
        cases hsp : setP l 0 45 with
        | none => rw [hsp] at h0; cases h0
        | some l2 =>
          rw [hsp] at h0
          cases h0
          obtain ⟨hlt, hl2⟩ := setP_some_inv hsp
          subst hl2
          rw [if_pos hs]
          simp
          omega
      · rw [if_neg hs] at h0
        cases h0
        rw [if_neg hs]
        simp
    obtain ⟨hb1len, hn1le, hn1⟩ := hsign
    cases hs1 : sliceFrom b1 n1 with
    | none => simp only [hs1] at h; cases h
    | some sub1 =>
      simp only [hs1] at h
      obtain ⟨hle1, hsub1⟩ := sliceFrom_some_inv hs1
      have hsub1len : sub1.length = l.length - n1 := by
        subst hsub1; simp; omega
      cases hw : sintWrite (intPart v ((10 : Int) ^ k)) sub1 with
      | error e sb => simp only [hw] at h; cases h
      | crash => simp only [hw] at h; cases h
      | ok sb m =>
        simp only [hw] at h
        obtain ⟨hm, hwle, hwlen⟩ := sintWrite_ok_inv hw
        have hb2len : (b1.take n1 ++ sb).length = l.length := by
          simp
          omega
        by_cases hdec : decPart v ((10 : Int) ^ k) = 0
        · rw [if_pos hdec] at h
          cases h
          have hns := no_sign_of_decPart_zero v ((10 : Int) ^ k) (by positivity) hdec
          rw [if_neg hns] at hn1
          rw [fracLen, if_pos hdec]
          refine ⟨by omega, by omega, hb2len⟩
        · rw [if_neg hdec] at h
          obtain ⟨hn, hnle, hblen, _⟩ := fracDecStep_ok_inv h
          rw [fracLen_parts v k hdec]
          refine ⟨by omega, by omega, by omega⟩

/-! ## The master specification over all encodable values -/

theorem encOut_length : ∀ (v : Value), WF v → (encOut v).length = encLen v := by
  intro v
  induction v with
  | uint v => intro _; exact natOut_length v
  | sint v => intro _; exact sintOut_length v
  | isize v => intro _; exact isizeOut_length v
  | str s => intro _; rfl
  | chr c => intro _; rfl
  | hex b => intro _; exact hexOut_length b
  | frac v d =>
    intro hwf
    obtain ⟨k, hd⟩ := hwf
    subst hd
    exact fracOut_length v k
  | padl e w c ih =>
    intro hwf
    have := ih hwf
    simp [encOut, encLen, this]
  | padr e w c ih =>
    intro hwf
    have := ih hwf
    simp [encOut, encLen, this]

theorem enc_spec : ∀ (v : Value), WF v → ∀ l : Buff, encLen v ≤ l.length →
    encWrite v l = .ok (encOut v ++ l.drop (encLen v)) (encLen v) := by
  intro v
  induction v with
  | uint v => intro _ l h; exact uintWrite_ok v l h
  | sint v => intro _ l h; exact sintWrite_ok v l h
  | isize v => intro _ l h; exact isizeWrite_ok v l h
  | str s => intro _ l h; exact strWrite_ok s l h
  | chr c => intro _ l h; exact charWrite_ok c l h
  | hex b => intro _ l h; exact hexWrite_ok b l h
  | frac v d =>
    intro hwf l h
    obtain ⟨k, hd⟩ := hwf
    subst hd
    exact fracWrite_ok v _ k rfl l h
  | padl e w c ih =>
    intro hwf l h
    have hwfe : WF e := hwf
    have hout := encOut_length e hwfe
    have hmax1 : encLen e ≤ max w (encLen e) := le_max_right _ _
    have hmax2 : w ≤ max w (encLen e) := le_max_left _ _
    simp only [encLen] at h
    have hfill : fillRange 0 (max w (encLen e) - encLen e) (c.toNat % 256) l
        = some (List.replicate (max w (encLen e) - encLen e) (c.toNat % 256)
            ++ l.drop (max w (encLen e) - encLen e)) := by
      rw [fillRange_some _ _ _ _ (by omega), writeAt_zero, List.length_replicate]
    have hslice : sliceFrom (List.replicate (max w (encLen e) - encLen e) (c.toNat % 256)
          ++ l.drop (max w (encLen e) - encLen e)) (max w (encLen e) - encLen e)
        = some (l.drop (max w (encLen e) - encLen e)) := by
      rw [sliceFrom_some (by simp)]
      rw [List.drop_left' (by simp)]
    have hinner : encWrite e (l.drop (max w (encLen e) - encLen e))
        = .ok (encOut e ++ (l.drop (max w (encLen e) - encLen e)).drop (encLen e))
          (encLen e) := ih hwfe _ (by simp; omega)
    simp only [encWrite, hfill, hslice, hinner]
    rw [List.take_left' (by simp)]
    simp only [encOut, encLen]
    rw [List.drop_drop]
    rw [show max w (encLen e) - encLen e + encLen e = max w (encLen e) from by omega]
    rw [show encLen e + (max w (encLen e) - encLen e) = max w (encLen e) from by omega]
    simp [List.append_assoc]
  | padr e w c ih =>
    intro hwf l h
    have hwfe : WF e := hwf
    have hout := encOut_length e hwfe
    have hmax1 : encLen e ≤ max w (encLen e) := le_max_right _ _
    have hmax2 : w ≤ max w (encLen e) := le_max_left _ _
    simp only [encLen] at h
    have hinner : encWrite e l
        = .ok (encOut e ++ l.drop (encLen e)) (encLen e) := ih hwfe _ (by omega)
    have hwz : encOut e ++ l.drop (encLen e) = writeAt l 0 (encOut e) := by
      rw [writeAt_zero, hout]
    have hfill : fillRange (encLen e) (max w (encLen e) - encLen e) (c.toNat % 256)
          (encOut e ++ l.drop (encLen e))
        = some (writeAt l 0 (encOut e
            ++ List.replicate (max w (encLen e) - encLen e) (c.toNat % 256))) := by
      rw [hwz, fillRange_some _ _ _ _ (by rw [writeAt_length (by omega)]; omega)]
      have hwa := writeAt_append (l := l) (i := 0) (s := encOut e)
        (t := List.replicate (max w (encLen e) - encLen e) (c.toNat % 256))
        (by simp [hout]; omega)
      rw [hout] at hwa
      simp only [Nat.zero_add, List.length_replicate] at hwa
      rw [← hwa]
    simp only [encWrite, hinner, hfill]
    simp only [encOut, encLen]
    rw [writeAt_zero]
    rw [show (encOut e ++ List.replicate (max w (encLen e) - encLen e)
      (c.toNat % 256)).length = max w (encLen e) from by simp [hout]]

theorem encWrite_ok_inv : ∀ (v : Value), WF v → ∀ (l b : Buff) (n : Nat),
    encWrite v l = .ok b n →
    n = encLen v ∧ encLen v ≤ l.length ∧ b.length = l.length := by
  intro v
  induction v with
  | uint v => intro _ l b n h; exact uintWrite_ok_inv h
  | sint v => intro _ l b n h; exact sintWrite_ok_inv h
  | isize v => intro _ l b n h; exact isizeWrite_ok_inv h
  | str s => intro _ l b n h; exact strWrite_ok_inv h
  | chr c => intro _ l b n h; exact charWrite_ok_inv h
  | hex bs => intro _ l b n h; exact hexWrite_ok_inv h
  | frac v d =>
    intro hwf l b n h
    obtain ⟨k, hd⟩ := hwf
    exact fracWrite_ok_inv k hd h
  | padl e w c ih =>
    intro hwf l b n h
    have hwfe : WF e := hwf
    have hmax1 : encLen e ≤ max w (encLen e) := le_max_right _ _
    have hmax2 : w ≤ max w (encLen e) := le_max_left _ _
    rw [encWrite] at h
    cases hf : fillRange 0 (max w (encLen e) - encLen e) (c.toNat % 256) l with
    | none => rw [hf] at h; cases h
    | some b1 =>
      simp only [hf] at h
      obtain ⟨_, hb1len⟩ := fillRange_some_inv _ _ _ _ _ hf
      cases hs : sliceFrom b1 (max w (encLen e) - encLen e) with
      | none => simp only [hs] at h; cases h
      | some sub =>
        simp only [hs] at h
        obtain ⟨hple, hsub⟩ := sliceFrom_some_inv hs
        cases hw : encWrite e sub with
        | error er sb => simp only [hw] at h; cases h
        | crash => simp only [hw] at h; cases h
        | ok sb m =>
          simp only [hw] at h
          obtain ⟨hm, hwle, hwlen⟩ := ih hwfe _ _ _ hw
          cases h
          have hsublen : sub.length = b1.length - (max w (encLen e) - encLen e) := by
            subst hsub; simp
          simp only [encLen]
          refine ⟨by omega, by omega, ?_⟩
          simp
          omega
  | padr e w c ih =>
    intro hwf l b n h
    have hwfe : WF e := hwf
    have hmax1 : encLen e ≤ max w (encLen e) := le_max_right _ _
    have hmax2 : w ≤ max w (encLen e) := le_max_left _ _
    rw [encWrite] at h
    cases hw : encWrite e l with
    | error er b1 => rw [hw] at h; cases h
    | crash => rw [hw] at h; cases h
    | ok b1 m =>
      simp only [hw] at h
      obtain ⟨hm, hwle, hwlen⟩ := ih hwfe _ _ _ hw
      cases hf : fillRange (encLen e) (max w (encLen e) - encLen e) (c.toNat % 256) b1 with
      | none => simp only [hf] at h; cases h
      | some b2 =>
        simp only [hf] at h
        obtain ⟨hfb, hb2len⟩ := fillRange_some_inv _ _ _ _ _ hf
        cases h
        refine ⟨rfl, ?_, by omega⟩
        simp only [encLen]
        by_cases hp : 0 < max w (encLen e) - encLen e
        · have := hfb hp
          omega
        · omega

/-! ## The sequential-composition loop of the `write!` macro -/

theorem writeAt_take_end {l : Buff} {i : Nat} {s : List Nat}
    (h : i + s.length ≤ l.length) :
    (writeAt l i s).take (i + s.length) = l.take i ++ s := by
  rw [writeAt]
  exact List.take_left' (by simp; omega)

theorem writeAt_drop_end {l : Buff} {i : Nat} {s : List Nat}
    (h : i + s.length ≤ l.length) :
    (writeAt l i s).drop (i + s.length) = l.drop (i + s.length) := by
  rw [writeAt]
  exact List.drop_left' (by simp; omega)

theorem joinOuts_length :
    ∀ (es : List Value), (∀ v ∈ es, WF v) →
      ((es.map encOut).flatten).length = (es.map encLen).sum := by
  intro es
  induction es with
  | nil => intro _; rfl
  | cons v rest ih =>
    intro hwf
    simp only [List.map_cons, List.flatten_cons, List.sum_cons, List.length_append]
    rw [encOut_length v (hwf v (by simp)), ih (fun x hx => hwf x (by simp [hx]))]

theorem writeSeq_ok :
    ∀ (es : List Value) (l : Buff) (n0 : Nat),
      (∀ v ∈ es, WF v) →
      n0 + ((es.map encLen).sum) ≤ l.length →
      writeSeq es l n0 =
        .ok (writeAt l n0 ((es.map encOut).flatten)) (n0 + (es.map encLen).sum) := by
  intro es
  induction es with
  | nil =>
    intro l n0 _ h
    simp [writeSeq, writeAt_nil]
  | cons v rest ih =>
    intro l n0 hwf h
    simp only [List.map_cons, List.sum_cons] at h
    have hwfv : WF v := hwf v (by simp)
    have hwfrest : ∀ x ∈ rest, WF x := fun x hx => hwf x (by simp [hx])
    have hlenv := encOut_length v hwfv
    have hjoin := joinOuts_length rest hwfrest
    rw [writeSeq, sliceFrom_some (by omega)]
    have hinner : encWrite v (l.drop n0)
        = .ok (encOut v ++ (l.drop n0).drop (encLen v)) (encLen v) :=
      enc_spec v hwfv _ (by simp; omega)
    simp only [hinner]
    have hb : l.take n0 ++ (encOut v ++ (l.drop n0).drop (encLen v))
        = writeAt l n0 (encOut v) := by
      rw [List.drop_drop, writeAt, hlenv]
      simp [List.append_assoc]
    rw [hb, ih _ _ hwfrest (by rw [writeAt_length (by omega)]; omega)]
    have hwa := writeAt_append (l := l) (i := n0) (s := encOut v)
      (t := (rest.map encOut).flatten) (by rw [hlenv, hjoin]; omega)
    rw [hlenv] at hwa
    rw [hwa]
    simp only [List.map_cons, List.flatten_cons, List.sum_cons]
    congr 1
    omega

theorem writeSeq_err :
    ∀ (es1 : List Value) (v : Value) (es2 : List Value) (l : Buff) (n0 : Nat)
      (e : Error) (sb : Buff),
      (∀ x ∈ es1, WF x) →
      n0 + (es1.map encLen).sum ≤ l.length →
      encWrite v (l.drop (n0 + (es1.map encLen).sum)) = .error e sb →
      writeSeq (es1 ++ v :: es2) l n0 =
        .error e ((l.take n0 ++ (es1.map encOut).flatten) ++ sb) := by
  intro es1
  induction es1 with
  | nil =>
    intro v es2 l n0 e sb _ hle herr
    simp only [List.map_nil, List.sum_nil, Nat.add_zero] at hle herr
    rw [List.nil_append, writeSeq, sliceFrom_some (by omega)]
    simp only [herr, List.map_nil, List.flatten_nil, List.append_nil]
  | cons x es1' ih =>
    intro v es2 l n0 e sb hwf hle herr
    simp only [List.map_cons, List.sum_cons] at hle herr
    have hwfx : WF x := hwf x (by simp)
    have hlenx := encOut_length x hwfx
    rw [List.cons_append, writeSeq, sliceFrom_some (by omega)]
    have hinner : encWrite x (l.drop n0)
        = .ok (encOut x ++ (l.drop n0).drop (encLen x)) (encLen x) :=
      enc_spec x hwfx _ (by simp; omega)
    simp only [hinner]
    have hb : l.take n0 ++ (encOut x ++ (l.drop n0).drop (encLen x))
        = writeAt l n0 (encOut x) := by
      rw [List.drop_drop, writeAt, hlenx]
      simp [List.append_assoc]
    rw [hb]
    have hwalen : (writeAt l n0 (encOut x)).length = l.length :=
      writeAt_length (by omega)
    have hdrop : (writeAt l n0 (encOut x)).drop (n0 + encLen x + (es1'.map encLen).sum)
        = l.drop (n0 + encLen x + (es1'.map encLen).sum) := by
      rw [show n0 + encLen x + (es1'.map encLen).sum
        = (n0 + encLen x) + (es1'.map encLen).sum from rfl, ← List.drop_drop,
        ← hlenx, writeAt_drop_end (by rw [hlenx]; omega), List.drop_drop, hlenx]
    rw [ih v es2 _ (n0 + encLen x) e sb (fun y hy => hwf y (by simp [hy]))
      (by rw [hwalen]; omega)
      (by rw [hdrop, show n0 + encLen x + (es1'.map encLen).sum
            = n0 + (encLen x + (es1'.map encLen).sum) from by omega]
          exact herr)]
    have htake : (writeAt l n0 (encOut x)).take (n0 + encLen x)
        = l.take n0 ++ encOut x := by
      rw [← hlenx, writeAt_take_end (by rw [hlenx]; omega)]
    rw [htake]
    simp [List.append_assoc]

/-! ## The claims -/

/-- Claim C1: the spec asserts that `isize` is encoded by the same signed
decimal algorithm as the other signed widths.  The source instead
instantiates the unsigned macro at `isize` (`impl_uint_encode!(isize)`),
whose `while v > 0` loop never runs for a negative value: `-1` reports
length 0 and `write` succeeds writing nothing, where the claim requires
length 2 and the bytes `"-1"` (as the signed algorithm `sintLen`/`sintWrite`
would produce). -/
theorem claim_c1_isize_negative :
    isizeLen (-1) = 0 ∧
      isizeWrite (-1) [0, 0] = .ok [0, 0] 0 ∧
      sintLen (-1) = 2 := by
  decide

/-- Claim C2 counterexample: `Fractional::new(-10, 100)` has `len() = 5`,
and writing it into an empty buffer panics (the direct store
`buff[n] = '-' as u8` indexes out of bounds, modelled by `crash`) instead
of returning the `BufferLength` error as the claim states. -/
theorem claim_c2_counterexample :
    fracLen (-10) 100 = 5 ∧
      fracWrite (-10) 100 [] = .crash ∧
      WRes.crash ≠ WRes.error .BufferLength [] := by
  decide

/-- Claim C2 (amended): on a destination buffer strictly smaller than the
reported `len()` no encoder ever succeeds, and the leaf encoders
(integers, `&str`, `char`, `Hex`) return the `BufferLength` error with the
buffer untouched; `Fractional`, `PadLeft` and `PadRight` never succeed
either but may panic on a direct out-of-bounds index instead of returning
the error. -/
theorem claim_c2_small_buffer (v : Value) (hwf : WF v) (l : Buff)
    (h : l.length < encLen v) :
    (∀ (b : Buff) (n : Nat), encWrite v l ≠ .ok b n) ∧
      (isLeafKind v = true → encWrite v l = .error .BufferLength l) := by
  constructor
  · intro b n hok
    obtain ⟨_, hle, _⟩ := encWrite_ok_inv v hwf l b n hok
    omega
  · intro hleaf
    cases v with
    | uint x => exact uintWrite_err x l h
    | sint x => exact sintWrite_err x l h
    | isize x => exact isizeWrite_err x l h
    | str s => exact strWrite_err s l h
    | chr c => exact charWrite_err c l h
    | hex b => exact hexWrite_err b l h
    | frac x d => simp [isLeafKind] at hleaf
    | padl e w c => simp [isLeafKind] at hleaf
    | padr e w c => simp [isLeafKind] at hleaf

/-- Witness for the amended claim C2 at a concrete input. -/
theorem claim_c2_small_buffer_witness :
    ([0, 0] : Buff).length < encLen (.uint 100) ∧
      encWrite (.uint 100) [0, 0] = .error .BufferLength [0, 0] :=
  ⟨by decide,
   (claim_c2_small_buffer (.uint 100) trivial [0, 0] (by decide)).2 (by decide)⟩

/-- Claim C3: the sign of a small negative fraction is emitted (the first
byte written is `'-'`), but `-10/100` encodes as `"-0.10"` with length 5,
not `"-0.1"` with length 4 as the claim (and the repository's own test
`fractional_i16`) requires: the code pads the decimal part `10` to the
full divisor-implied width and never trims the trailing zero. -/
theorem claim_c3_small_negative_fraction :
    fracLen (-10) 100 = 5 ∧
      fracWrite (-10) 100 (List.replicate 5 0) = .ok [45, 48, 46, 49, 48] 5 := by
  decide

/-- Claim C4: for a divisor `10 ^ k` and a non-zero decimal part, `len()`
equals the length of the written bytes, the decimal section after the
`'.'` (left zero-padding plus decimal digits) prints exactly
`divisor.len() - 1 = k` characters, and `write` fills the buffer with
exactly those bytes. -/
theorem claim_c4_decimal_padding (v : Int) (k : Nat)
    (hdec : decPart v ((10 : Int) ^ k) ≠ 0) :
    (fracOut v ((10 : Int) ^ k)).length = fracLen v ((10 : Int) ^ k) ∧
      (List.replicate (fracPadding v ((10 : Int) ^ k)) 48
          ++ sintOut (decPart v ((10 : Int) ^ k))).length
        = sintLen ((10 : Int) ^ k) - 1 ∧
      ∀ l : Buff, fracLen v ((10 : Int) ^ k) ≤ l.length →
        fracWrite v ((10 : Int) ^ k) l
          = .ok (fracOut v ((10 : Int) ^ k) ++ l.drop (fracLen v ((10 : Int) ^ k)))
            (fracLen v ((10 : Int) ^ k)) := by
  refine ⟨fracOut_length v k, ?_, fun l h => fracWrite_ok v _ k rfl l h⟩
  have h1 := sintLen_decPart_le v k hdec
  simp [sintOut_length, fracPadding_eq v k hdec, sintLen_pow]
  omega

/-- Witness for claim C4: `5/1000` encodes as `"0.005"` (bytes
`[48, 46, 48, 48, 53]`), not `"0.5"`. -/
theorem claim_c4_witness :
    decPart 5 ((10 : Int) ^ 3) ≠ 0 ∧
      fracWrite 5 ((10 : Int) ^ 3) (List.replicate 5 0)
        = .ok [48, 46, 48, 48, 53] 5 := by
  refine ⟨by decide, ?_⟩
  have h := (claim_c4_decimal_padding 5 3 (by decide)).2.2 (List.replicate 5 0)
    (by decide)
  rw [h]
  decide

/-- Claim C5: when the decimal part is zero both `len()` and `write`
produce only the integer part, with no decimal point, and agree on its
length, for every positive divisor. -/
theorem claim_c5_whole_number (v d : Int) (hd : 0 < d) (hdec : v.tmod d = 0) :
    fracLen v d = sintLen (intPart v d) ∧
      ∀ l : Buff, sintLen (intPart v d) ≤ l.length →
        fracWrite v d l
          = .ok (sintOut (intPart v d) ++ l.drop (sintLen (intPart v d)))
            (sintLen (intPart v d)) := by
  have hdp : decPart v d = 0 := by rw [decPart, hdec]; rfl
  have hns : ¬ (intPart v d = 0 ∧ v < 0) := no_sign_of_decPart_zero v d hd hdp
  constructor
  · rw [fracLen, if_pos hdp]
  · intro l h
    have h0 : fracSignStep v d l = some (l, 0) := by rw [fracSignStep, if_neg hns]
    have h1 : sliceFrom l 0 = some l := by
      rw [sliceFrom_some (by omega), List.drop_zero]
    have h2 := sintWrite_ok (intPart v d) l h
    rw [fracWrite_eq_of h0 h1 h2, if_pos hdp]
    simp

/-- Witness for claim C5: value 0 with the positive (non-power-of-ten)
divisor 7 encodes as `"0"`. -/
theorem claim_c5_witness :
    (0 : Int) < 7 ∧ (0 : Int).tmod 7 = 0 ∧
      fracWrite 0 7 [0] = .ok [48] 1 := by
  refine ⟨by decide, by decide, ?_⟩
  have h := (claim_c5_whole_number 0 7 (by decide) (by decide)).2 [0] (by decide)
  rw [h]
  decide

/-- Claim C6: both pad directions report length `max(width, inner.len())`,
add no padding when the width does not exceed the inner length, and
otherwise surround the full inner encoding with exactly
`max(width, inner.len()) - inner.len() = width - inner.len()` fill bytes on
the specified side (before the inner value for `PadLeft`, after it for
`PadRight`); the inner value is never truncated. -/
theorem claim_c6_padding (e : Value) (w : Nat) (c : Char) (hwf : WF e) :
    encLen (.padl e w c) = max w (encLen e) ∧
      encLen (.padr e w c) = max w (encLen e) ∧
      (w ≤ encLen e → max w (encLen e) - encLen e = 0) ∧
      ∀ l : Buff, max w (encLen e) ≤ l.length →
        encWrite (.padl e w c) l
          = .ok ((List.replicate (max w (encLen e) - encLen e) (c.toNat % 256)
                ++ encOut e) ++ l.drop (max w (encLen e))) (max w (encLen e)) ∧
        encWrite (.padr e w c) l
          = .ok ((encOut e
                ++ List.replicate (max w (encLen e) - encLen e) (c.toNat % 256))
              ++ l.drop (max w (encLen e))) (max w (encLen e)) := by
  refine ⟨rfl, rfl, fun hw => by omega, fun l h => ⟨?_, ?_⟩⟩
  · exact enc_spec (.padl e w c) hwf l h
  · exact enc_spec (.padr e w c) hwf l h

/-- Witness for claim C6: `"123"` padded to width 6 with `' '` on either
side. -/
theorem claim_c6_witness :
    encWrite (.padl (.str [49, 50, 51]) 6 ' ') (List.replicate 6 0)
        = .ok [32, 32, 32, 49, 50, 51] 6 ∧
      encWrite (.padr (.str [49, 50, 51]) 6 ' ') (List.replicate 6 0)
        = .ok [49, 50, 51, 32, 32, 32] 6 := by
  have h := (claim_c6_padding (.str [49, 50, 51]) 6 ' ' trivial).2.2.2
    (List.replicate 6 0) (by decide)
  refine ⟨?_, ?_⟩
  · rw [h.1]; decide
  · rw [h.2]; decide

/-- Claim C7: the hex encoder reports exactly `2 × input length`, writes
two characters per input byte in order, and every output byte is one of
the sixteen lowercase symbols of `HEX_MAP`. -/
theorem claim_c7_hex (b : List Nat) :
    encLen (.hex b) = 2 * b.length ∧
      (∀ x ∈ hexOut b, x ∈ HEX_MAP.map Char.toNat) ∧
      ∀ l : Buff, 2 * b.length ≤ l.length →
        encWrite (.hex b) l = .ok (hexOut b ++ l.drop (2 * b.length)) (2 * b.length) := by
  have hmem : ∀ r : Nat, r < 16 → hexByte r ∈ HEX_MAP.map Char.toNat := by decide
  refine ⟨by simp [encLen]; ring, ?_, ?_⟩
  · intro x hx
    induction b with
    | nil => cases hx
    | cons v rest ih =>
      rw [hexOut] at hx
      simp only [List.mem_cons] at hx
      rcases hx with rfl | rfl | hx
      · exact hmem _ (Nat.mod_lt _ (by omega))
      · exact hmem _ (Nat.mod_lt _ (by omega))
      · exact ih hx
  · intro l h
    have h2 : b.length * 2 ≤ l.length := by omega
    have := hexWrite_ok b l h2
    rw [show 2 * b.length = b.length * 2 from by ring]
    exact this

/-- Witness for claim C7: the bytes `[0x00, 0x12, 0x34, 0x56, 0x78, 0x9a,
0xbc, 0xde]` encode to exactly `"00123456789abcde"`. -/
theorem claim_c7_witness :
    encWrite (.hex [0x00, 0x12, 0x34, 0x56, 0x78, 0x9a, 0xbc, 0xde])
        (List.replicate 16 0)
      = .ok [48, 48, 49, 50, 51, 52, 53, 54, 55, 56, 57, 97, 98, 99, 100, 101] 16 := by
  have h := (claim_c7_hex [0x00, 0x12, 0x34, 0x56, 0x78, 0x9a, 0xbc, 0xde]).2.2
    (List.replicate 16 0) (by decide)
  rw [h]
  decide

/-- Claim C8: the composition facility writes each value's encoding
consecutively from offset 0, advancing the offset by each returned length,
and returns the total on success; an error from any element is propagated
immediately, with the bytes written by the preceding elements left in
place in the buffer. -/
theorem claim_c8_composition :
    (∀ (es : List Value) (l : Buff), (∀ v ∈ es, WF v) →
        (es.map encLen).sum ≤ l.length →
        writeAll es l
          = .ok ((es.map encOut).flatten ++ l.drop ((es.map encLen).sum))
            ((es.map encLen).sum)) ∧
      (∀ (es1 : List Value) (v : Value) (es2 : List Value) (l : Buff)
          (e : Error) (sb : Buff),
        (∀ x ∈ es1, WF x) →
        (es1.map encLen).sum ≤ l.length →
        encWrite v (l.drop ((es1.map encLen).sum)) = .error e sb →
        writeAll (es1 ++ v :: es2) l = .error e ((es1.map encOut).flatten ++ sb)) := by
  constructor
  · intro es l hwf h
    rw [writeAll, writeSeq_ok es l 0 hwf (by omega), writeAt_zero,
      joinOuts_length es hwf]
    simp
  · intro es1 v es2 l e sb hwf h herr
    rw [writeAll, writeSeq_err es1 v es2 l 0 e sb hwf (by omega)
      (by simpa using herr)]
    simp

/-- Witness for claim C8: composing `["something", ' ', 15u8, '/', 100u8]`
yields the bytes `"something 15/100"` and returned length 16. -/
theorem claim_c8_witness :
    writeAll [.str [115, 111, 109, 101, 116, 104, 105, 110, 103], .chr ' ',
        .uint 15, .chr '/', .uint 100] (List.replicate 32 0)
      = .ok ([115, 111, 109, 101, 116, 104, 105, 110, 103,
          32, 49, 53, 47, 49, 48, 48] ++ List.replicate 16 0) 16 := by
  have h := claim_c8_composition.1
    [.str [115, 111, 109, 101, 116, 104, 105, 110, 103], .chr ' ',
      .uint 15, .chr '/', .uint 100] (List.replicate 32 0)
    (by
      intro x hx
      simp only [List.mem_cons, List.not_mem_nil, or_false] at hx
      rcases hx with rfl | rfl | rfl | rfl | rfl <;> trivial)
    (by decide)
  rw [h]
  decide

/-- Claim C9: encoding is deterministic — the bytes written and the
returned length depend only on the value (and not on the prior buffer
contents), so writing the same value into two fresh buffers of the same
sufficient size yields byte-identical output and identical lengths. -/
theorem claim_c9_determinism (v : Value) (hwf : WF v) (l1 l2 : Buff)
    (hlen : l1.length = l2.length) (h : encLen v ≤ l1.length) :
    ∃ out : List Nat, out.length = encLen v ∧
      encWrite v l1 = .ok (out ++ l1.drop (encLen v)) (encLen v) ∧
      encWrite v l2 = .ok (out ++ l2.drop (encLen v)) (encLen v) :=
  ⟨encOut v, encOut_length v hwf, enc_spec v hwf l1 h,
    enc_spec v hwf l2 (by omega)⟩

/-- Witness for claim C9: the same character written into two equal-sized
buffers with different initial contents produces identical results. -/
theorem claim_c9_witness :
    ([7] : Buff).length = ([9] : Buff).length ∧
      encWrite (.chr 'a') [7] = encWrite (.chr 'a') [9] := by
  refine ⟨rfl, ?_⟩
  obtain ⟨out, _, h1, h2⟩ :=
    claim_c9_determinism (.chr 'a') trivial [7] [9] rfl (by decide)
  have hdrop : List.drop (encLen (.chr 'a')) ([7] : Buff)
      = List.drop (encLen (.chr 'a')) ([9] : Buff) := by decide
  rw [h1, h2, hdrop]

/-- Claim C10 (implicit): the char encoder always reports length 1 and
stores the single byte `c as u8`, the code point truncated to its low
8 bits — a non-ASCII character is written as that one truncated byte, not
as its multi-byte UTF-8 encoding. -/
theorem claim_c10_char_truncation (c : Char) (l : Buff) (h : 1 ≤ l.length) :
    encLen (.chr c) = 1 ∧
      encWrite (.chr c) l = .ok ((c.toNat % 256) :: l.drop 1) 1 :=
  ⟨rfl, charWrite_ok c l h⟩

/-- Witness for claim C10: `'€'` (code point 0x20AC, three bytes in UTF-8)
is written as the single truncated byte 0xAC = 172. -/
theorem claim_c10_witness :
    1 ≤ ([0] : Buff).length ∧ (Char.ofNat 8364).toNat % 256 = 172 ∧
      encWrite (.chr (Char.ofNat 8364)) [0] = .ok [172] 1 := by
  refine ⟨by decide, by decide, ?_⟩
  have h := (claim_c10_char_truncation (Char.ofNat 8364) [0] (by decide)).2
  rw [h]
  decide
